import Mathlib

/-!
# Verification of the `timestamp` Go package (intuitivelabs/timestamp)

Shallow embedding of `timestamp.go`.  The package stores a time stamp as a
single signed 64-bit count of nanoseconds since the Unix epoch
(`type TS time.Duration`) and converts to and from the standard library's
calendar type `time.Time`.

Machine integers are modelled as `Int` with explicit two's-complement
wraparound (`wrap64`) where the Go code can overflow, and Go's `time.Time`
is modelled as the instant it denotes: a field `ns` holding the (unbounded)
count of nanoseconds since Go's internal zero time, January 1 of year 1,
00:00:00 UTC (`time.Time{}` has `ns = 0`).  Locations/timezones are not
modelled: the package stores none and normalizes every conversion to UTC,
so instant equality is exactly "equality after UTC normalization".
-/

namespace timestamp

/-! ## Signed 64-bit arithmetic helpers -/

/-- `2^63`, the magnitude of the minimum signed 64-bit integer. -/
def two63 : Int := 9223372036854775808

/-- `2^64`. -/
def two64 : Int := 18446744073709551616

/-- Two's complement wraparound of a full-width integer into the signed
64-bit range `[-2^63, 2^63)`; this is Go's silent `int64` overflow
behaviour. -/
def wrap64 (x : Int) : Int := (x + two63) % two64 - two63

/-- Arithmetic (sign-propagating) right shift by 63 of a signed 64-bit
value, i.e. floor division by `2^63`: `-1` for a negative value, `0` for a
non-negative one.  Models Go's `>> 63` on `int64`. -/
def sar63 (x : Int) : Int := Int.fdiv x two63

/-! ## The external calendar facility: Go's `time` package

Only the fragment the repository uses is embedded.  A `time.Time` is
modelled by the instant it denotes, as nanoseconds since Go's zero time
(January 1, year 1, 00:00:00 UTC). -/

/-- Go `time.Time`, as a pure UTC instant (nanoseconds since the zero
time, January 1 of year 1).  Go's representation is `sec : int64` seconds
since year 1 plus `nsec ∈ [0, 10^9)`, which is exactly the set of values
`ns = sec * 10^9 + nsec`; the monotonic-clock reading and the location are
presentational and stripped by the UTC conversions this package performs. -/
structure Time where
  ns : Int
deriving DecidableEq

/-- Go `time.Time.IsZero`: the zero value `time.Time{}` is January 1,
year 1, 00:00:00 UTC. -/
def Time.IsZero (t : Time) : Bool := t.ns == 0

/-- Go `time.Time.Sub`: returns `t - u` as a `time.Duration` (`int64`
nanoseconds).  Per the documented stdlib contract, "if the result exceeds
the maximum (or minimum) value that can be stored in a Duration d, the
maximum (or minimum) duration will be returned": the difference saturates
to the `int64` range instead of wrapping. -/
def Time.Sub (t u : Time) : Int :=
  if t.ns - u.ns < -9223372036854775808 then -9223372036854775808
  else if 9223372036854775807 < t.ns - u.ns then 9223372036854775807
  else t.ns - u.ns

/-- Go `time.Time.Add`: adds a duration of `d` nanoseconds to the
instant. -/
def Time.Add (t : Time) (d : Int) : Time := ⟨t.ns + d⟩

/-- Go `time.Time.After`: instant comparison `t > u`. -/
def Time.After (t u : Time) : Bool := decide (t.ns > u.ns)

/-- Go `time.Time.Before`: instant comparison `t < u`. -/
def Time.Before (t u : Time) : Bool := decide (t.ns < u.ns)

/-- Go `time.Time.Equal`: instant equality (locations are ignored by Go's
`Equal`, matching this instant model). -/
def Time.Equal (t u : Time) : Bool := t.ns == u.ns

/-- Go `time.Time.Truncate`: for `d > 0`, rounds the instant down to the
nearest multiple of `d` *counting from the zero time (year 1)*; Go's `div`
helper produces the floor remainder `r ∈ [0, d)` of the instant by `d` and
`Truncate` returns `t.Add(-r)`.  For `d ≤ 0` the instant is returned
unchanged. -/
def Time.Truncate (t : Time) (d : Int) : Time :=
  if d ≤ 0 then t else ⟨t.ns - t.ns % d⟩

/-- A Go `*time.Location`; the package only ever mentions `time.UTC` and
`nil` (the latter modelled as `none` of `Option Location`). -/
inductive Location
  | UTC
deriving DecidableEq

/-- Nanoseconds per second. -/
def nsecPerSec : Int := 1000000000

/-- Go `unixToInternal`: seconds from January 1, year 1 to the Unix epoch
(January 1, 1970): `(1969*365 + 1969/4 - 1969/100 + 1969/400) * 86400`. -/
def unixToInternalSec : Int := 62135596800

/-- The Unix epoch expressed in this model: nanoseconds from the zero time
to January 1, 1970, 00:00:00 UTC. -/
def unixEpochNs : Int := unixToInternalSec * nsecPerSec

/-- Go leap-year test (proleptic Gregorian). -/
def isLeap (y : Int) : Bool := (y % 4 == 0 && y % 100 != 0) || y % 400 == 0

/-- Go `daysBefore[m-1]`: days in a non-leap year before the first of
month `m`. -/
def daysBeforeMonth (m : Int) : Int :=
  if m ≤ 1 then 0
  else if m = 2 then 31
  else if m = 3 then 59
  else if m = 4 then 90
  else if m = 5 then 120
  else if m = 6 then 151
  else if m = 7 then 181
  else if m = 8 then 212
  else if m = 9 then 243
  else if m = 10 then 273
  else if m = 11 then 304
  else 334

/-- Days from January 1 of year 1 (day 0) to January 1 of year `y` in the
proleptic Gregorian calendar; the mathematical content of Go's
`daysSinceEpoch`. -/
def daysToYear (y : Int) : Int :=
  365 * (y - 1) + Int.fdiv (y - 1) 4 - Int.fdiv (y - 1) 100 + Int.fdiv (y - 1) 400

/-- Go's `norm(hi, lo, base)` helper: floor-normalizes `lo` into
`[0, base)` carrying into `hi`. -/
def norm (hi lo base : Int) : Int × Int :=
  (hi + Int.fdiv lo base, Int.fmod lo base)

/-- The calendar computation of Go `time.Date` for the UTC location:
normalize the fields, count days since the zero time, and assemble the
instant.  (Only reachable from this repository through `goDate` with a
non-nil location, which the repository never passes.) -/
def dateCalc (year month day hour minute sec nsec : Int) : Time :=
  let sn := norm sec nsec 1000000000
  let ms := norm minute sn.1 60
  let hm := norm hour ms.1 60
  let dh := norm day hm.1 24
  let ym := norm year (month - 1) 12
  let y := ym.1
  let m := ym.2 + 1
  let days := daysToYear y + daysBeforeMonth m
    + (if isLeap y && decide (m ≥ 3) then 1 else 0) + (dh.1 - 1)
  ⟨(days * 86400 + dh.2 * 3600 + hm.2 * 60 + ms.2) * 1000000000 + sn.2⟩

/-- Go `time.Date(year, month, day, hour, min, sec, nsec, loc)`.  Go
panics with "time: missing Location in call to Date" when `loc` is nil;
the panic is embedded as `none`.  For a non-nil (UTC) location it returns
the calendar instant. -/
def goDate (year month day hour minute sec nsec : Int)
    (loc : Option Location) : Option Time :=
  match loc with
  | none => none
  | some _ => some (dateCalc year month day hour minute sec nsec)

/-! ## The `timestamp` package itself -/

/-- `type TS time.Duration`: a time stamp with nanosecond precision,
stored as a signed 64-bit count of nanoseconds since the Unix epoch.
`time.Duration` is `int64`; time stamp values are modelled as `Int` (with
explicit wraparound where the Go arithmetic can overflow), so the alias is
declared to `Int`.  Signatures below use `Int` directly. -/
abbrev TS := Int

/-- `MaxTS TS = 1<<63 - 1`. -/
def MaxTS : Int := 9223372036854775807

/-- `MinTS TS = -1 << 63`. -/
def MinTS : Int := -9223372036854775808

/-- `var tZero time.Time = time.Unix(0, 0).UTC()`: the reference
`time.Time` for `TS` 0, i.e. the Unix epoch. -/
def tZero : Time := ⟨unixEpochNs⟩

/-- The zero value `time.Time{}` of the external facility (January 1,
year 1): the zero/unset sentinel. -/
def zeroTime : Time := ⟨0⟩

/-- `func Timestamp(t time.Time) TS`: returns 0 for the zero `time.Time`
(which lies far outside the representable range), otherwise
`TS(t.Sub(tZero))`. -/
def Timestamp (t : Time) : Int :=
  if t.IsZero then 0 else Time.Sub t tZero

/-- `func OutOfRange(t time.Time) bool`: true if `t` is out of the
representable range (~ 1970 ± 292 years). -/
def OutOfRange (t : Time) : Bool :=
  !t.IsZero &&
    (decide (Time.Sub t tZero ≤ MinTS) || decide (Time.Sub t tZero ≥ MaxTS))

/-- `func DurationToTS(d time.Duration) TS`. -/
def DurationToTS (d : Int) : Int := d

/-- `func Zero() TS`: the time stamp corresponding to the zero value. -/
def Zero : Int := Timestamp tZero

/-- `func (ts TS) Duration() time.Duration`. -/
def TS.Duration (ts : Int) : Int := ts

/-- `func (ts TS) IsZero() bool`: true iff the numeric value is 0. -/
def TS.IsZero (ts : Int) : Bool := ts == 0

/-- `func (ts TS) Time() time.Time`: the 0 time stamp is specially
converted to the zero `time.Time`; otherwise `tZero.Add(ts.Duration())`. -/
def TS.Time (ts : Int) : Time :=
  if TS.IsZero ts then zeroTime else Time.Add tZero (TS.Duration ts)

/-- `func (ts TS) Add(d time.Duration) TS`: `ts + TS(d)`, plain `int64`
addition (wraps on overflow). -/
def TS.Add (ts d : Int) : Int := wrap64 (ts + d)

/-- `func (ts TS) AddTS(ts2 TS) TS`: `ts + ts2`, plain `int64` addition
(wraps on overflow). -/
def TS.AddTS (ts ts2 : Int) : Int := wrap64 (ts + ts2)

/-- `func (ts TS) AddDate(years, months, days int) TS`:
`date := time.Date(years, time.Month(months), days, 0, 0, 0, 0, nil)`
followed by `ts.AddTS(Timestamp(date))`.  The nil location makes
`time.Date` panic, embedded as `none`. -/
def TS.AddDate (ts years months days : Int) : Option Int :=
  match goDate years months days 0 0 0 0 none with
  | none => none
  | some date => some (TS.AddTS ts (Timestamp date))

/-- `func (ts TS) Sub(ts2 TS) time.Duration`: `(ts - ts2).Duration()`,
plain `int64` subtraction (wraps on overflow). -/
def TS.Sub (ts ts2 : Int) : Int := wrap64 (ts - ts2)

/-- `func (ts TS) After(ts2 TS) bool`: `ts > ts2`. -/
def TS.After (ts ts2 : Int) : Bool := decide (ts > ts2)

/-- `func (ts TS) Before(ts2 TS) bool`: `ts < ts2`. -/
def TS.Before (ts ts2 : Int) : Bool := decide (ts < ts2)

/-- `func (ts TS) Equal(ts2 TS) bool`: `ts == ts2`. -/
def TS.Equal (ts ts2 : Int) : Bool := ts == ts2

/-- `func (ts TS) Truncate(d time.Duration) TS`: for `d <= 0` returns
`ts`; otherwise `(ts/TS(d) + (ts%TS(d))>>63) * TS(d)` where `/` and `%`
are Go's truncating (toward zero) `int64` division and remainder and
`>> 63` is the arithmetic right shift, so the quotient is decremented by
one exactly when the remainder is negative (floor division).  The final
multiplication is `int64` arithmetic, hence wraps. -/
def TS.Truncate (ts d : Int) : Int :=
  if d ≤ 0 then ts
  else wrap64 ((Int.tdiv ts d + sar63 (Int.tmod ts d)) * d)

/-- `func (ts TS) TruncateTime(d time.Duration) time.Time`:
`ts.Time().Truncate(d)`. -/
def TS.TruncateTime (ts d : Int) : timestamp.Time :=
  Time.Truncate (TS.Time ts) d

/-! ## Helper lemmas -/

/-- `wrap64` is the identity on the signed 64-bit range. -/
theorem wrap64_eq_self {x : Int} (h1 : MinTS ≤ x) (h2 : x ≤ MaxTS) :
    wrap64 x = x := by
  unfold MinTS at h1
  unfold MaxTS at h2
  have hm : (x + two63) % two64 = x + two63 :=
    Int.emod_eq_of_lt (by unfold two63; omega) (by unfold two63 two64; omega)
  unfold wrap64
  rw [hm]
  omega

/-- Arithmetic shift right by 63 of a non-negative in-range value is 0. -/
theorem sar63_nonneg {x : Int} (h1 : 0 ≤ x) (h2 : x < two63) : sar63 x = 0 := by
  unfold sar63
  rw [Int.fdiv_eq_ediv _ (by unfold two63; omega)]
  unfold two63 at h2 ⊢
  omega

/-- Arithmetic shift right by 63 of a negative in-range value is -1. -/
theorem sar63_neg {x : Int} (h1 : -two63 ≤ x) (h2 : x < 0) : sar63 x = -1 := by
  unfold sar63
  rw [Int.fdiv_eq_ediv _ (by unfold two63; omega)]
  unfold two63 at h1 ⊢
  omega

/-- Truncating remainder negated in the first argument. -/
theorem neg_tmod (a b : Int) : Int.tmod (-a) b = -Int.tmod a b := by
  rw [Int.tmod_def, Int.tmod_def, Int.neg_tdiv]
  ring

/-- The truncating remainder lies strictly between `-d` and `d` for
`d > 0`. -/
theorem tmod_bounds {a d : Int} (hd : 0 < d) :
    -d < Int.tmod a d ∧ Int.tmod a d < d := by
  rcases le_or_lt 0 a with ha | ha
  · have h1 := Int.tmod_nonneg d ha
    have h2 := Int.tmod_lt_of_pos a hd
    omega
  · have h1 := Int.tmod_nonneg d (by omega : (0:Int) ≤ -a)
    have h2 := Int.tmod_lt_of_pos (-a) hd
    rw [neg_tmod] at h1 h2
    omega

/-- The sign of the truncating remainder follows the dividend. -/
theorem tmod_nonpos_of_neg {a d : Int} (ha : a < 0) : Int.tmod a d ≤ 0 := by
  have h1 := Int.tmod_nonneg d (by omega : (0:Int) ≤ -a)
  rw [neg_tmod] at h1
  omega

/-- The quotient-correction expression of `TS.Truncate` computes the floor
multiple `ts - ts % d` (with `%` the Euclidean remainder, which for
`d > 0` is the floor remainder), before any 64-bit wraparound. -/
theorem truncCore {ts d : Int} (hd : 0 < d) (hdm : d ≤ MaxTS) :
    (Int.tdiv ts d + sar63 (Int.tmod ts d)) * d = ts - ts % d := by
  have hqr : d * Int.tdiv ts d + Int.tmod ts d = ts := Int.tdiv_add_tmod ts d
  have hb := tmod_bounds (a := ts) hd
  have hmod : ts % d = Int.tmod ts d % d := by
    conv_lhs => rw [← hqr, add_comm, mul_comm d (Int.tdiv ts d)]
    exact Int.add_mul_emod_self
  rcases le_or_lt 0 (Int.tmod ts d) with hr | hr
  · rw [sar63_nonneg hr (by unfold MaxTS at hdm; unfold two63; omega)]
    have hmm : ts % d = Int.tmod ts d := by
      rw [hmod, Int.emod_eq_of_lt hr hb.2]
    rw [hmm]
    have hq : d * Int.tdiv ts d = ts - Int.tmod ts d := by linarith
    calc (Int.tdiv ts d + 0) * d = d * Int.tdiv ts d := by ring
      _ = ts - Int.tmod ts d := hq
  · rw [sar63_neg (by unfold MaxTS at hdm; unfold two63; omega) hr]
    have hmm : ts % d = Int.tmod ts d + d := by
      rw [hmod]
      have h2 : (Int.tmod ts d + d * 1) % d = Int.tmod ts d % d :=
        Int.add_mul_emod_self_left (Int.tmod ts d) d 1
      have h3 : Int.tmod ts d + d * 1 = Int.tmod ts d + d := by ring
      rw [h3] at h2
      rw [← h2]
      exact Int.emod_eq_of_lt (by omega) (by omega)
    rw [hmm]
    have hq : d * Int.tdiv ts d = ts - Int.tmod ts d := by linarith
    calc (Int.tdiv ts d + -1) * d = d * Int.tdiv ts d - d := by ring
      _ = ts - (Int.tmod ts d + d) := by rw [hq]; ring

/-- `TS.Truncate` equals the floor multiple whenever that multiple is
still representable (no 64-bit wraparound). -/
theorem truncate_eq_floor {ts d : Int} (hd : 0 < d) (hdm : d ≤ MaxTS)
    (hts : ts ≤ MaxTS) (hfl : MinTS ≤ ts - ts % d) :
    TS.Truncate ts d = ts - ts % d := by
  unfold TS.Truncate
  rw [if_neg (by omega), truncCore hd hdm]
  have hnn : 0 ≤ ts % d := Int.emod_nonneg ts (by omega)
  exact wrap64_eq_self hfl (by unfold MaxTS at hts ⊢; omega)

/-- Arithmetic characterization of `OutOfRange`: the saturation in
`Time.Sub` does not change on which side of the bounds the true difference
falls, so the predicate holds iff `t` is nonzero and the full-width
difference from the epoch is `≤ MinTS` or `≥ MaxTS`. -/
theorem outOfRange_iff (t : Time) :
    OutOfRange t = true ↔
      (t.ns ≠ 0 ∧ (t.ns - unixEpochNs ≤ MinTS ∨ t.ns - unixEpochNs ≥ MaxTS)) := by
  obtain ⟨n⟩ := t
  simp only [OutOfRange, Time.IsZero, Time.Sub, tZero, Bool.and_eq_true,
    Bool.not_eq_true', Bool.or_eq_true, decide_eq_true_eq, beq_eq_false_iff_ne, ne_eq]
  have hE : unixEpochNs = 62135596800000000000 := by decide
  rw [hE]
  unfold MinTS MaxTS
  split_ifs <;> omega

/-- `Timestamp` on a zero `time.Time` returns 0. -/
theorem timestamp_zero {t : Time} (h : t.ns = 0) : Timestamp t = 0 := by
  unfold Timestamp Time.IsZero
  simp [h]

/-- `Timestamp` on a nonzero `time.Time` returns the saturated
difference from the epoch. -/
theorem timestamp_nonzero {t : Time} (h : t.ns ≠ 0) :
    Timestamp t =
      if t.ns - unixEpochNs < MinTS then MinTS
      else if MaxTS < t.ns - unixEpochNs then MaxTS
      else t.ns - unixEpochNs := by
  unfold Timestamp Time.IsZero Time.Sub tZero MinTS MaxTS
  simp [h]

/-- `TS.Time` on a nonzero stamp adds the stamp to the epoch. -/
theorem tsTime_nonzero {ts : Int} (h : ts ≠ 0) :
    TS.Time ts = ⟨unixEpochNs + ts⟩ := by
  unfold TS.Time TS.IsZero Time.Add tZero TS.Duration
  simp [h]

/-! ## Claims -/

/-- C2: the claim asserts `AddDate(years, months, days)` returns a result
for every argument triple; the code instead panics for every triple,
because it calls `time.Date` with a nil location and `time.Date`
unconditionally panics on a nil location.  Evaluating the embedded code:
`TS.AddDate` is `none` (panic) on every input. -/
theorem C2_addDate_panics :
    ∀ (ts years months days : Int), TS.AddDate ts years months days = none :=
  fun _ _ _ _ => rfl

/-- C3: `Timestamp` of the external zero value is numeric 0; `Time()` of
the numeric-0 stamp is the external zero value (not the epoch); and
`IsZero()` is true exactly on the numeric value 0. -/
theorem C3_zero_special :
    Timestamp zeroTime = 0 ∧ TS.Time 0 = zeroTime ∧ TS.Time 0 ≠ tZero ∧
    ∀ ts : Int, TS.IsZero ts = true ↔ ts = 0 := by
  refine ⟨by decide, by decide, by decide, ?_⟩
  intro ts
  simp [TS.IsZero]

/-- C1: counterexample — the Unix epoch instant `tZero` itself is a
nonzero external value with `OutOfRange` false, yet the round trip does
not return it: `Timestamp` maps it to 0, which `Time()` sends to the zero
sentinel (year 1), not back to the epoch. -/
theorem C1_epoch_cex :
    Time.IsZero tZero = false ∧ OutOfRange tZero = false ∧
    TS.Time (Timestamp tZero) ≠ tZero := by
  refine ⟨by decide, by decide, by decide⟩

/-- C1 (amended): for every external value `t` that is the zero/unset
value, or is in range (`!OutOfRange(t)`) *and is not the epoch instant
itself*, converting to a compact timestamp and back is the identity (UTC
instants compared directly). -/
theorem C1_round_trip (t : Time)
    (h : Time.IsZero t = true ∨ (OutOfRange t = false ∧ t ≠ tZero)) :
    TS.Time (Timestamp t) = t := by
  obtain ⟨n⟩ := t
  rcases h with h | ⟨h1, h2⟩
  · have hn : n = 0 := by simpa [Time.IsZero] using h
    subst hn
    decide
  · by_cases hz : n = 0
    · subst hz
      decide
    · have hrange := (outOfRange_iff ⟨n⟩).not.mp (by rw [h1]; simp)
      simp only [ne_eq, not_and, not_or, not_le, not_lt] at hrange
      have hb := hrange hz
      have hE : unixEpochNs = 62135596800000000000 := by decide
      simp only [MinTS, MaxTS, hE] at hb
      have hne : n ≠ unixEpochNs := by
        intro he
        exact h2 (by rw [tZero, he])
      have hts : Timestamp ⟨n⟩ = n - unixEpochNs := by
        rw [timestamp_nonzero hz]
        simp only [MinTS, MaxTS, hE]
        rw [if_neg (by omega), if_neg (by omega)]
      rw [hts, tsTime_nonzero (by rw [hE] at hne ⊢; omega)]
      have h3 : unixEpochNs + (n - unixEpochNs) = n := by ring
      rw [h3]

/-- C1 witness: the round trip at a concrete in-range instant (one
second after the epoch). -/
theorem C1_round_trip_witness :
    TS.Time (Timestamp ⟨unixEpochNs + 1000000000⟩) = ⟨unixEpochNs + 1000000000⟩ :=
  C1_round_trip ⟨unixEpochNs + 1000000000⟩ (Or.inr ⟨by decide, by decide⟩)

/-- C4: counterexample — at `ts = MinTS`, `d = 3` (a valid stamp and a
positive duration) the floored multiple is `MinTS - 1`, which wraps
around to `MaxTS`: the result of `Truncate` is *greater* than `ts`, so
the floor law fails as stated. -/
theorem C4_truncate_cex :
    (0:Int) < 3 ∧ (3:Int) ≤ MaxTS ∧ MinTS ≤ MinTS ∧
    TS.Truncate MinTS 3 = MaxTS ∧ ¬ TS.Truncate MinTS 3 ≤ MinTS := by
  refine ⟨by decide, by decide, by decide, by decide, by decide⟩

/-- C4 (amended): for every stamp `ts` and duration `d` (int64 values):
if `d ≤ 0` then `Truncate` returns `ts` unchanged; if `d > 0` and the
floored multiple `ts - ts % d` does not underflow `MinTS` (it can only do
so when `ts` lies within `d` of `MinTS`), then `Truncate` returns the
greatest multiple of `d` relative to the epoch that is `≤ ts`, rounding
toward negative infinity also for negative `ts`. -/
theorem C4_truncate_floor (ts d : Int) (hts : ts ≤ MaxTS) (hdm : d ≤ MaxTS) :
    (d ≤ 0 → TS.Truncate ts d = ts) ∧
    (0 < d → MinTS ≤ ts - ts % d →
      (d ∣ TS.Truncate ts d ∧ TS.Truncate ts d ≤ ts ∧
        ∀ m : Int, d ∣ m → m ≤ ts → m ≤ TS.Truncate ts d)) := by
  constructor
  · intro hd
    unfold TS.Truncate
    rw [if_pos hd]
  · intro hd hfl
    have hfloor := truncate_eq_floor hd hdm hts hfl
    have hnn : 0 ≤ ts % d := Int.emod_nonneg ts (by omega)
    have hlt : ts % d < d := Int.emod_lt_of_pos ts hd
    refine ⟨?_, ?_, ?_⟩
    · rw [hfloor, Int.emod_def]
      exact ⟨ts / d, by ring⟩
    · rw [hfloor]
      omega
    · intro m hm hmle
      rw [hfloor]
      by_contra hcon
      push_neg at hcon
      have hdvd : d ∣ (m - (ts - ts % d)) := by
        refine dvd_sub hm ?_
        rw [Int.emod_def]
        exact ⟨ts / d, by ring⟩
      have hge : d ≤ m - (ts - ts % d) := Int.le_of_dvd (by omega) hdvd
      omega

/-- C4 witness: the amended floor law at `ts = 7` with `d = -2` (no-op
branch) and `d = 3` (floor branch). -/
theorem C4_truncate_floor_witness :
    TS.Truncate 7 (-2) = 7 ∧
    (3 ∣ TS.Truncate 7 3 ∧ TS.Truncate 7 3 ≤ 7 ∧
      ∀ m : Int, 3 ∣ m → m ≤ 7 → m ≤ TS.Truncate 7 3) :=
  ⟨(C4_truncate_floor 7 (-2) (by decide) (by decide)).1 (by decide),
   (C4_truncate_floor 7 3 (by decide) (by decide)).2 (by decide) (by decide)⟩

/-- C10: sentinel collapse under truncation — for every nonzero stamp
with `0 < ts < d`, `Truncate` yields numeric 0, whose `Time()` is the
external zero/unset sentinel, although `ts` itself denotes a real nonzero
instant: truncation silently turns a real instant into the zero
sentinel. -/
theorem C10_sentinel_collapse (ts d : Int) (h1 : 0 < ts) (h2 : ts < d)
    (hdm : d ≤ MaxTS) :
    TS.Truncate ts d = 0 ∧ TS.Time (TS.Truncate ts d) = zeroTime ∧
    Time.IsZero (TS.Time ts) = false ∧
    TS.Time (TS.Truncate ts d) ≠ TS.Time ts := by
  have hmod : ts % d = ts := Int.emod_eq_of_lt (by omega) h2
  have ht : TS.Truncate ts d = 0 := by
    rw [truncate_eq_floor (by omega) hdm (by omega)
      (by rw [hmod]; simp only [MinTS]; omega), hmod]
    ring
  have htime : TS.Time ts = ⟨unixEpochNs + ts⟩ := tsTime_nonzero (by omega)
  have hE : (0:Int) < unixEpochNs := by decide
  have h0 : TS.Time (0:Int) = zeroTime := by decide
  refine ⟨ht, by rw [ht]; exact h0, ?_, ?_⟩
  · rw [htime]
    simp only [Time.IsZero, beq_eq_false_iff_ne, ne_eq]
    omega
  · rw [ht, htime, h0]
    simp only [zeroTime, ne_eq, Time.mk.injEq]
    omega

/-- C10 witness: the collapse at the concrete stamp 1 truncated to 2. -/
theorem C10_sentinel_collapse_witness :
    TS.Truncate 1 2 = 0 ∧ TS.Time (TS.Truncate 1 2) = zeroTime ∧
    Time.IsZero (TS.Time 1) = false ∧
    TS.Time (TS.Truncate 1 2) ≠ TS.Time 1 :=
  C10_sentinel_collapse 1 2 (by decide) (by decide) (by decide)

/-- C5: counterexample — comparing the zero-sentinel stamp 0 against the
negative stamp -1: numerically `After` holds, but the sentinel's `Time()`
is year 1, which is *before* the instant of -1 (one nanosecond before the
epoch), so the relation on `Time()` values disagrees. -/
theorem C5_ordering_cex :
    TS.After 0 (-1) = true ∧ Time.After (TS.Time 0) (TS.Time (-1)) = false := by
  refine ⟨by decide, by decide⟩

/-- C5 (amended): for all stamps `a`, `b`, exactly one of `After`,
`Before`, `Equal` holds; and the relation that holds matches the
corresponding relation on `a.Time()` / `b.Time()` provided no operand is
the zero sentinel while the other is negative (the sentinel converts to
year 1, which sorts below every other converted stamp). -/
theorem C5_ordering (a b : Int) :
    ((TS.After a b = true ∧ TS.Before a b = false ∧ TS.Equal a b = false) ∨
     (TS.After a b = false ∧ TS.Before a b = true ∧ TS.Equal a b = false) ∨
     (TS.After a b = false ∧ TS.Before a b = false ∧ TS.Equal a b = true)) ∧
    ((a = 0 → 0 ≤ b) → (b = 0 → 0 ≤ a) →
      (TS.After a b = Time.After (TS.Time a) (TS.Time b) ∧
       TS.Before a b = Time.Before (TS.Time a) (TS.Time b) ∧
       TS.Equal a b = Time.Equal (TS.Time a) (TS.Time b))) := by
  have hEpos : (0:Int) < unixEpochNs := by decide
  constructor
  · simp only [TS.After, TS.Before, TS.Equal, decide_eq_true_eq,
      decide_eq_false_iff_not, beq_iff_eq, beq_eq_false_iff_ne, ne_eq,
      gt_iff_lt, not_lt]
    omega
  · intro ha hb
    by_cases haz : a = 0 <;> by_cases hbz : b = 0
    · subst haz
      subst hbz
      exact ⟨by decide, by decide, by decide⟩
    · subst haz
      have hb' : 0 < b := lt_of_le_of_ne (ha rfl) (Ne.symm hbz)
      rw [show TS.Time (0:Int) = zeroTime from by decide, tsTime_nonzero hbz]
      refine ⟨?_, ?_, ?_⟩ <;>
        · rw [Bool.eq_iff_iff]
          simp only [TS.After, TS.Before, TS.Equal, Time.After, Time.Before,
            Time.Equal, zeroTime, decide_eq_true_eq, beq_iff_eq, gt_iff_lt]
          omega
    · subst hbz
      have ha' : 0 < a := lt_of_le_of_ne (hb rfl) (Ne.symm haz)
      rw [show TS.Time (0:Int) = zeroTime from by decide, tsTime_nonzero haz]
      refine ⟨?_, ?_, ?_⟩ <;>
        · rw [Bool.eq_iff_iff]
          simp only [TS.After, TS.Before, TS.Equal, Time.After, Time.Before,
            Time.Equal, zeroTime, decide_eq_true_eq, beq_iff_eq, gt_iff_lt]
          omega
    · rw [tsTime_nonzero haz, tsTime_nonzero hbz]
      refine ⟨?_, ?_, ?_⟩ <;>
        · rw [Bool.eq_iff_iff]
          simp only [TS.After, TS.Before, TS.Equal, Time.After, Time.Before,
            Time.Equal, decide_eq_true_eq, beq_iff_eq, gt_iff_lt]
          omega

/-- C5 witness: the amended matching at the concrete stamps 2 and 1. -/
theorem C5_ordering_witness :
    TS.After 2 1 = Time.After (TS.Time 2) (TS.Time 1) ∧
    TS.Before 2 1 = Time.Before (TS.Time 2) (TS.Time 1) ∧
    TS.Equal 2 1 = Time.Equal (TS.Time 2) (TS.Time 1) :=
  (C5_ordering 2 1).2 (by decide) (by decide)

/-- C6: counterexample — for the nonzero out-of-range instant at
epoch + 2^63 ns, wrapping the full-width difference to 64 bits would
give `MinTS`, but the conversion saturates and returns `MaxTS`. -/
theorem C6_wrap_cex :
    Time.IsZero ⟨unixEpochNs + two63⟩ = false ∧
    OutOfRange ⟨unixEpochNs + two63⟩ = true ∧
    wrap64 (unixEpochNs + two63 - unixEpochNs) = MinTS ∧
    Timestamp ⟨unixEpochNs + two63⟩ = MaxTS ∧ MaxTS ≠ MinTS := by
  refine ⟨by decide, by decide, by decide, by decide, by decide⟩

/-- C6 (amended): converting a nonzero external instant never fails and
returns the difference `t - epoch` saturated to the representable range
(the external facility's subtraction clamps on overflow): `MaxTS` when
the difference is ≥ MaxTS, `MinTS` when ≤ MinTS, the exact difference
strictly inside. -/
theorem C6_saturation (t : Time) (h : Time.IsZero t = false) :
    (MaxTS ≤ t.ns - unixEpochNs → Timestamp t = MaxTS) ∧
    (t.ns - unixEpochNs ≤ MinTS → Timestamp t = MinTS) ∧
    (MinTS < t.ns - unixEpochNs → t.ns - unixEpochNs < MaxTS →
      Timestamp t = t.ns - unixEpochNs) := by
  have hz : t.ns ≠ 0 := by simpa [Time.IsZero] using h
  have ht := timestamp_nonzero hz
  simp only [MinTS, MaxTS] at ht ⊢
  refine ⟨fun h1 => ?_, fun h1 => ?_, fun h1 h2 => ?_⟩ <;>
    · rw [ht]
      split_ifs <;> omega

/-- C6 witness: saturation at the concrete instant epoch + 2^63 ns. -/
theorem C6_saturation_witness :
    Timestamp ⟨unixEpochNs + two63⟩ = MaxTS :=
  (C6_saturation ⟨unixEpochNs + two63⟩ (by decide)).1 (by decide)

/-- C7: `OutOfRange(t)` is true iff `t` is not the zero/unset value and
the offset `t - epoch` is ≤ MinTS or ≥ MaxTS as a duration; in
particular the extremes themselves are flagged out of range and one
nanosecond inside them is not. -/
theorem C7_out_of_range :
    (∀ t : Time, OutOfRange t = true ↔
      (Time.IsZero t = false ∧
        (t.ns - unixEpochNs ≤ MinTS ∨ t.ns - unixEpochNs ≥ MaxTS))) ∧
    OutOfRange ⟨unixEpochNs + MaxTS⟩ = true ∧
    OutOfRange ⟨unixEpochNs + MaxTS - 1⟩ = false ∧
    OutOfRange ⟨unixEpochNs + MinTS⟩ = true ∧
    OutOfRange ⟨unixEpochNs + MinTS + 1⟩ = false := by
  refine ⟨?_, by decide, by decide, by decide, by decide⟩
  intro t
  rw [outOfRange_iff]
  simp [Time.IsZero]

/-- C8: counterexample — at `ts = 1`, `d = 2` the compact truncation
collapses to the zero sentinel (year 1) while truncating the converted
instant stays at the epoch, so the two paths disagree. -/
theorem C8_truncate_cross_cex :
    (0:Int) < 2 ∧ TS.Time (TS.Truncate 1 2) ≠ TS.TruncateTime 1 2 := by
  refine ⟨by decide, by decide⟩

/-- C8 (amended): for positive `d` the compact truncation agrees with
the external facility's truncation of the converted instant provided
(i) `d` divides the epoch offset from the external zero time — the two
truncations floor on grids anchored at the Unix epoch and at year 1
respectively, so the grids must coincide; (ii) the floored multiple does
not underflow `MinTS`; and (iii) the truncation does not collapse a
nonzero stamp onto the zero sentinel. -/
theorem C8_truncate_cross (ts d : Int) (hts : ts ≤ MaxTS) (hdm : d ≤ MaxTS)
    (hd : 0 < d) (hdvd : d ∣ unixEpochNs)
    (hfl : MinTS ≤ ts - ts % d) (hsent : ts - ts % d = 0 → ts = 0) :
    TS.Time (TS.Truncate ts d) = TS.TruncateTime ts d := by
  have hfloor := truncate_eq_floor hd hdm hts hfl
  by_cases hz : ts = 0
  · subst hz
    have h00 : (0:Int) - 0 % d = 0 := by simp
    rw [hfloor, h00]
    unfold TS.TruncateTime
    rw [show TS.Time (0:Int) = zeroTime from by decide]
    unfold Time.Truncate zeroTime
    rw [if_neg (by omega)]
    simp
  · have hnz : ts - ts % d ≠ 0 := fun h0 => hz (hsent h0)
    rw [hfloor, tsTime_nonzero hnz]
    unfold TS.TruncateTime
    rw [tsTime_nonzero hz]
    unfold Time.Truncate
    rw [if_neg (by omega)]
    obtain ⟨k, hk⟩ := hdvd
    have hmod : (unixEpochNs + ts) % d = ts % d := by
      rw [hk, add_comm (d * k) ts, mul_comm d k]
      exact Int.add_mul_emod_self
    simp only [Time.mk.injEq]
    rw [hmod]
    ring

/-- C8 witness: agreement at the concrete stamp 5 truncated to 2 (2
divides the epoch offset). -/
theorem C8_truncate_cross_witness :
    TS.Time (TS.Truncate 5 2) = TS.TruncateTime 5 2 :=
  C8_truncate_cross 5 2 (by decide) (by decide) (by decide) (by decide)
    (by decide) (by decide)

/-- C9: additive inverse — absent 64-bit overflow, `a.Add(d).Sub(a) = d`,
and `a.Add(d) ≠ a` whenever `d ≠ 0`. -/
theorem C9_additive_inverse (a d : Int) (ha1 : MinTS ≤ a) (ha2 : a ≤ MaxTS)
    (hd1 : MinTS ≤ d) (hd2 : d ≤ MaxTS)
    (hs1 : MinTS ≤ a + d) (hs2 : a + d ≤ MaxTS) :
    TS.Sub (TS.Add a d) a = d ∧ (d ≠ 0 → TS.Add a d ≠ a) := by
  have hadd : TS.Add a d = a + d := wrap64_eq_self hs1 hs2
  constructor
  · unfold TS.Sub
    rw [hadd]
    have h1 : a + d - a = d := by ring
    rw [h1]
    exact wrap64_eq_self hd1 hd2
  · intro hdz hcon
    rw [hadd] at hcon
    apply hdz
    omega

/-- C9 witness: the additive inverse at the concrete stamp 5 and
duration 3. -/
theorem C9_additive_inverse_witness :
    TS.Sub (TS.Add 5 3) 5 = 3 ∧ ((3:Int) ≠ 0 → TS.Add 5 3 ≠ 5) :=
  C9_additive_inverse 5 3 (by decide) (by decide) (by decide) (by decide)
    (by decide) (by decide)

end timestamp
